import Mathlib

/-!
Shallow embedding of `simplelru/lru_ttl.go` (package simplelru), the single
source file of gopheros/golang-lru: a fixed-size LRU cache with per-entry TTL.

Modelling conventions:
* Go `interface{}` keys/values become type parameters `K`, `V` with decidable
  equality on `K` (Go map keys must be comparable).
* `time.Time` / `time.Duration` become `Nat`; every method that calls
  `time.Now()` takes an explicit `now : Nat` argument.
  `time.Now().Add(d)` is `now + d`; `t1.After(t2)` is `t1 > t2` (strict).
* `container/list.List` (front = most recently used, back = least recently
  used) becomes `List (EntryTtl K V)` with the head as the front.
* The Go map `items : map[interface{}]*list.Element` maps each key to a
  pointer at the unique list element holding that key, so it is modelled as
  the list of its keys; dereferencing the pointer is `List.find?` on the
  order list (the structures' own invariant `Inv` makes that element unique).
* `*time.Timer` values are held by the per-entry cleanup goroutine and
  outlive the entry, so timers live in an append-only store `timers`;
  an entry holds the index of its timer.  `time.NewTimer d` at time `now`
  appends `⟨now + d, false⟩`; `entry_ttl.Reset` (stop + reset) overwrites
  the entry's timer with `⟨now + d, false⟩`.  A timer is cancelled iff its
  `stopped` flag is set.
* The optional eviction callback `onEvict` is modelled by the flag
  `onEvictSet` plus an event log `evictLog`: each invocation of the callback
  appends the `(key, value)` pair it was called with.
* The `sync.RWMutex` field and goroutine scheduling are not modelled; all
  theorems are about the sequential semantics of each operation.
-/

set_option linter.unusedSectionVars false

namespace SimpleLRU

/-- State of one `time.Timer`: its absolute fire deadline and whether
`Stop` was called on it. -/
structure Timer where
  deadline : Nat
  stopped : Bool
deriving Repr, DecidableEq

/-- Go `entry_ttl`: key, value, absolute expiry time (`ttl` field in the
source), and the index of the entry's timer in the timer store. -/
structure EntryTtl (K V : Type) where
  key : K
  value : V
  ttl : Nat
  timer : Nat
deriving Repr, DecidableEq

/-- Go `LRUTtl`: capacity `size`, the recency-ordered entry list (head =
front = most recently used), the key set of the `items` map, the default
TTL `expiry`, plus the timer store and eviction-callback log. -/
structure LRUTtl (K V : Type) where
  size : Int
  evictList : List (EntryTtl K V)
  items : List K
  expiry : Nat
  timers : List Timer
  onEvictSet : Bool
  evictLog : List (K × V)
deriving Repr, DecidableEq

namespace LRUTtl

variable {K V : Type} [DecidableEq K]

/-- The predicate selecting the list element holding key `k`. -/
def keyIs (k : K) : EntryTtl K V → Bool := fun e => decide (e.key = k)

/-- The fresh cache built by a successful `NewLRUTtl`. -/
def mkCache (size : Int) (expiry : Nat) (onEvictSet : Bool) : LRUTtl K V :=
  ⟨size, [], [], expiry, [], onEvictSet, []⟩

/-- Go `NewLRUTtl`: rejects non-positive sizes with an error (`none`). -/
def NewLRUTtl (size : Int) (expiry : Nat) (onEvictSet : Bool) :
    Option (LRUTtl K V) :=
  if size ≤ 0 then none else some (mkCache size expiry onEvictSet)

/-- Go `removeElement`: unlink `e` from `evictList`, delete its key from
`items`, and invoke `onEvict` (when set) with the entry's key and value.
The timers are untouched (the source never stops the removed entry's
timer). -/
def removeElement (c : LRUTtl K V) (e : EntryTtl K V) : LRUTtl K V :=
  { c with
    evictList := c.evictList.eraseP (keyIs e.key)
    items := c.items.eraseP (fun x => decide (x = e.key))
    evictLog :=
      if c.onEvictSet then c.evictLog ++ [(e.key, e.value)] else c.evictLog }

/-- Go `removeOldest` (private): remove the back element if any. -/
def removeOldest (c : LRUTtl K V) : LRUTtl K V :=
  match c.evictList.getLast? with
  | some e => removeElement c e
  | none => c

/-- Go `list.MoveToFront` applied to the element the map points at for
key `k`. -/
def MoveToFront (c : LRUTtl K V) (k : K) : LRUTtl K V :=
  match c.evictList.find? (keyIs k) with
  | some e => { c with evictList := e :: c.evictList.eraseP (keyIs k) }
  | none => c

/-- Go `Remove`: presence is tested on the `items` map; the pointed element
is removed via `removeElement`.  (The `none` inner branch is unreachable for
caches satisfying `Inv`: the map key always has its list element.) -/
def Remove (c : LRUTtl K V) (k : K) : LRUTtl K V × Bool :=
  if k ∈ c.items then
    match c.evictList.find? (keyIs k) with
    | some e => (removeElement c e, true)
    | none => (c, true)
  else (c, false)

/-- Go `Add`: refresh path (key in `items`): move to front, overwrite value,
recompute `ttl = now + expiry`, reset the entry's timer, return `false`.
Insert path: create the entry with a fresh timer, push front, register in
`items`, then evict the back element iff the new length exceeds `size`. -/
def Add (c : LRUTtl K V) (k : K) (v : V) (now : Nat) : LRUTtl K V × Bool :=
  if k ∈ c.items then
    match c.evictList.find? (keyIs k) with
    | some ent =>
      ({ c with
          evictList :=
            { ent with value := v, ttl := now + c.expiry } ::
              c.evictList.eraseP (keyIs k)
          timers := c.timers.set ent.timer ⟨now + c.expiry, false⟩ }, false)
    | none => (c, false)
  else
    let ent : EntryTtl K V := ⟨k, v, now + c.expiry, c.timers.length⟩
    let c1 : LRUTtl K V :=
      { c with
        timers := c.timers ++ [⟨now + c.expiry, false⟩]
        evictList := ent :: c.evictList
        items := k :: c.items }
    let evict := decide ((c1.evictList.length : Int) > c.size)
    (if evict then removeOldest c1 else c1, evict)

/-- Go `Get`: on a hit, move to front first, then lazily expire when
`now > ttl` (removing the entry through `Remove`, which invokes `onEvict`),
otherwise return the value. -/
def Get (c : LRUTtl K V) (k : K) (now : Nat) : LRUTtl K V × Option V :=
  if k ∈ c.items then
    match c.evictList.find? (keyIs k) with
    | some ent =>
      if now > ent.ttl then ((Remove (MoveToFront c k) k).1, none)
      else (MoveToFront c k, some ent.value)
    | none => (c, none)
  else (c, none)

/-- Go `Contains`: map membership only. -/
def Contains (c : LRUTtl K V) (k : K) : LRUTtl K V × Bool :=
  (c, decide (k ∈ c.items))

/-- Go `Peek`: read the pointed element's value without any mutation. -/
def Peek (c : LRUTtl K V) (k : K) : LRUTtl K V × Option V :=
  if k ∈ c.items then
    (c, (c.evictList.find? (keyIs k)).map (fun e => e.value))
  else (c, none)

/-- Go `RemoveOldest` (public): remove and return the back entry. -/
def RemoveOldest (c : LRUTtl K V) : LRUTtl K V × Option (K × V) :=
  match c.evictList.getLast? with
  | some e => (removeElement c e, some (e.key, e.value))
  | none => (c, none)

/-- Go `GetOldest`: back entry without removal. -/
def GetOldest (c : LRUTtl K V) : LRUTtl K V × Option (K × V) :=
  match c.evictList.getLast? with
  | some e => (c, some (e.key, e.value))
  | none => (c, none)

/-- Go `Keys`: keys from oldest (back) to newest (front). -/
def Keys (c : LRUTtl K V) : List K :=
  (c.evictList.map (fun e => e.key)).reverse

/-- Go `Len`: the length of the eviction list. -/
def Len (c : LRUTtl K V) : Int :=
  (c.evictList.length : Int)

/-- The `for i := 0; i < diff; i++ { c.removeOldest() }` loop of `Resize`. -/
def removeOldestN (c : LRUTtl K V) : Nat → LRUTtl K V
  | 0 => c
  | n + 1 => removeOldestN (removeOldest c) n

/-- Go `Resize`: clamp `Len - size` at zero, remove that many oldest
entries, install the new capacity, and return the clamped difference. -/
def Resize (c : LRUTtl K V) (size : Int) : LRUTtl K V × Int :=
  let diff := (Len c - size).toNat
  ({ removeOldestN c diff with size := size }, (diff : Int))

/-- Go `Purge`: iterate over the `items` map invoking `onEvict` with each
key and its entry's value while deleting the key, then reinitialise the
list.  Timers are untouched. -/
def Purge (c : LRUTtl K V) : LRUTtl K V :=
  { c with
    items := []
    evictList := []
    evictLog :=
      if c.onEvictSet then
        c.evictLog ++ c.items.filterMap (fun k =>
          (c.evictList.find? (keyIs k)).map (fun e => (k, e.value)))
      else c.evictLog }

/-- The keys of the order list, front to back. -/
def keysOf (c : LRUTtl K V) : List K := c.evictList.map (fun e => e.key)

/-- The map/list consistency invariant of the structure: the map's key set
and the order list's key sequence are duplicate-free and have the same
members (so the map resolves each key to exactly one element and vice
versa). -/
def Inv (c : LRUTtl K V) : Prop :=
  c.items.Nodup ∧ (keysOf c).Nodup ∧
  (∀ x ∈ c.items, x ∈ keysOf c) ∧ (∀ x ∈ keysOf c, x ∈ c.items)

instance (c : LRUTtl K V) : Decidable (Inv c) := by
  unfold Inv; infer_instance

/-- Whether the timer at index `i` of the store has been stopped. -/
def timerStoppedAt (c : LRUTtl K V) (i : Nat) : Bool :=
  match c.timers.get? i with
  | some t => t.stopped
  | none => false

/-- The cache states reached after each `Add` of a batch of
`(key, value, now)` requests. -/
def addTrace (c : LRUTtl K V) : List (K × V × Nat) → List (LRUTtl K V)
  | [] => []
  | (k, v, now) :: rest => (c.Add k v now).1 :: addTrace (c.Add k v now).1 rest

end LRUTtl

/-- A small concrete cache used to instantiate the theorems: capacity 2,
TTL 10, callback set, holding key 7 with value 42 added at time 0 (so its
entry owns timer index 0, armed for deadline 10). -/
def exCache : LRUTtl Nat Nat := ((LRUTtl.mkCache 2 10 true).Add 7 42 0).1

namespace LRUTtl

variable {K V : Type} [DecidableEq K]

/-! ### Helper lemmas about `find?`, `eraseP` and keys -/

theorem of_find?_keyIs {l : List (EntryTtl K V)} {k : K} {e : EntryTtl K V}
    (h : l.find? (keyIs k) = some e) : e.key = k ∧ e ∈ l :=
  ⟨by simpa [keyIs] using List.find?_some h, List.mem_of_find?_eq_some h⟩

theorem find?_keyIs_of_mem {l : List (EntryTtl K V)} {e : EntryTtl K V}
    (hnd : (l.map (fun x => x.key)).Nodup) (he : e ∈ l) :
    l.find? (keyIs e.key) = some e := by
  induction l with
  | nil => cases he
  | cons a l ih =>
    have hcons : (a.key :: l.map (fun x => x.key)).Nodup := by simpa using hnd
    rcases List.mem_cons.mp he with rfl | he2
    · exact List.find?_cons_of_pos _ (by simp [keyIs])
    · have hmem : e.key ∈ l.map (fun x => x.key) := List.mem_map_of_mem _ he2
      have hne : ¬ (keyIs e.key a = true) := by
        simp only [keyIs, decide_eq_true_eq]
        intro hk
        exact (List.nodup_cons.mp hcons).1 (hk ▸ hmem)
      rw [List.find?_cons_of_neg _ hne]
      exact ih (List.nodup_cons.mp hcons).2 he2

theorem find?_keyIs_eq_none {l : List (EntryTtl K V)} {k : K}
    (h : k ∉ l.map (fun x => x.key)) : l.find? (keyIs k) = none := by
  rw [List.find?_eq_none]
  intro x hx hpx
  exact h (by
    have : x.key = k := by simpa [keyIs] using hpx
    exact this ▸ List.mem_map_of_mem _ hx)

theorem map_key_eraseP (l : List (EntryTtl K V)) (k : K) :
    (l.eraseP (keyIs k)).map (fun e => e.key) =
      (l.map (fun e => e.key)).eraseP (fun x => decide (x = k)) := by
  rw [List.eraseP_map]
  rfl

theorem mem_eraseP_key {L : List K} (hnd : L.Nodup) (x k : K) :
    x ∈ L.eraseP (fun y => decide (y = k)) ↔ x ∈ L ∧ x ≠ k := by
  induction L with
  | nil => simp
  | cons a L ih =>
    have h1 : a ∉ L := (List.nodup_cons.mp hnd).1
    have h2 : L.Nodup := (List.nodup_cons.mp hnd).2
    by_cases hak : a = k
    · subst hak
      rw [List.eraseP_cons_of_pos (by simp)]
      constructor
      · intro hx
        exact ⟨List.mem_cons_of_mem _ hx, fun hxa => h1 (hxa ▸ hx)⟩
      · rintro ⟨hx, hne⟩
        rcases List.mem_cons.mp hx with rfl | h
        · exact absurd rfl hne
        · exact h
    · rw [List.eraseP_cons_of_neg (by simpa using hak)]
      constructor
      · intro hx
        rcases List.mem_cons.mp hx with rfl | h
        · exact ⟨List.mem_cons_self _ _, hak⟩
        · have h3 := (ih h2).mp h
          exact ⟨List.mem_cons_of_mem _ h3.1, h3.2⟩
      · rintro ⟨hx, hne⟩
        rcases List.mem_cons.mp hx with rfl | h
        · exact List.mem_cons_self _ _
        · exact List.mem_cons_of_mem _ ((ih h2).mpr ⟨h, hne⟩)

theorem eraseP_keyIs_getLast {l : List (EntryTtl K V)} (h : l ≠ [])
    (hnd : (l.map (fun e => e.key)).Nodup) :
    l.eraseP (keyIs (l.getLast h).key) = l.dropLast := by
  have hsplit := List.dropLast_concat_getLast h
  have hnd2 : ((l.dropLast ++ [l.getLast h]).map (fun e => e.key)).Nodup := by
    rw [hsplit]; exact hnd
  rw [List.map_append] at hnd2
  have hdisj := List.nodup_append.mp hnd2
  calc l.eraseP (keyIs (l.getLast h).key)
      = (l.dropLast ++ [l.getLast h]).eraseP (keyIs (l.getLast h).key) := by
        rw [hsplit]
    _ = l.dropLast ++ ([l.getLast h].eraseP (keyIs (l.getLast h).key)) := by
        refine List.eraseP_append_right _ ?_
        intro b hb hpb
        have hbk : b.key = (l.getLast h).key := by simpa [keyIs] using hpb
        have hmem : b.key ∈ l.dropLast.map (fun e => e.key) :=
          List.mem_map_of_mem _ hb
        have : (l.getLast h).key ∈ [(l.getLast h).key] := List.mem_singleton_self _
        exact hdisj.2.2 (hbk ▸ hmem) (by simp)
    _ = l.dropLast := by
        rw [List.eraseP_cons_of_pos (by simp [keyIs])]
        simp

/-! ### Invariant preservation -/

theorem inv_mkCache (size : Int) (expiry : Nat) (fl : Bool) :
    Inv (mkCache size expiry fl : LRUTtl K V) := by
  simp [Inv, mkCache, keysOf]

theorem keysOf_removeElement (c : LRUTtl K V) (e : EntryTtl K V) :
    keysOf (removeElement c e) =
      (keysOf c).eraseP (fun x => decide (x = e.key)) := by
  simp [keysOf, removeElement, map_key_eraseP]

theorem inv_removeElement {c : LRUTtl K V} (e : EntryTtl K V)
    (hinv : Inv c) : Inv (removeElement c e) := by
  obtain ⟨h1, h2, h3, h4⟩ := hinv
  refine ⟨List.Nodup.eraseP _ h1, ?_, ?_, ?_⟩
  · rw [keysOf_removeElement]
    exact List.Nodup.eraseP _ h2
  · intro x hx
    rw [keysOf_removeElement]
    have hx2 := (mem_eraseP_key h1 x e.key).mp hx
    exact (mem_eraseP_key h2 x e.key).mpr ⟨h3 x hx2.1, hx2.2⟩
  · intro x hx
    rw [keysOf_removeElement] at hx
    have hx2 := (mem_eraseP_key h2 x e.key).mp hx
    exact (mem_eraseP_key h1 x e.key).mpr ⟨h4 x hx2.1, hx2.2⟩

theorem inv_moveToFront (c : LRUTtl K V) (k : K) (hinv : Inv c) :
    Inv (MoveToFront c k) := by
  obtain ⟨h1, h2, h3, h4⟩ := hinv
  unfold MoveToFront
  cases hfind : c.evictList.find? (keyIs k) with
  | none => exact ⟨h1, h2, h3, h4⟩
  | some e =>
    obtain ⟨hek, hel⟩ := of_find?_keyIs hfind
    subst hek
    have hkmem : e.key ∈ keysOf c := List.mem_map_of_mem _ hel
    have hkeys : keysOf { c with
        evictList := e :: c.evictList.eraseP (keyIs e.key) } =
        e.key :: (keysOf c).eraseP (fun x => decide (x = e.key)) := by
      simp [keysOf, map_key_eraseP]
    refine ⟨h1, ?_, ?_, ?_⟩
    · rw [hkeys, List.nodup_cons]
      refine ⟨?_, List.Nodup.eraseP _ h2⟩
      intro hmem
      exact ((mem_eraseP_key h2 e.key e.key).mp hmem).2 rfl
    · intro x hx
      rw [hkeys]
      by_cases hxe : x = e.key
      · subst hxe; exact List.mem_cons_self _ _
      · exact List.mem_cons_of_mem _
          ((mem_eraseP_key h2 x e.key).mpr ⟨h3 x hx, hxe⟩)
    · intro x hx
      rw [hkeys] at hx
      rcases List.mem_cons.mp hx with rfl | hx2
      · exact h4 _ hkmem
      · exact h4 x ((mem_eraseP_key h2 x e.key).mp hx2).1

theorem inv_removeOldest (c : LRUTtl K V) (hinv : Inv c) :
    Inv (removeOldest c) := by
  unfold removeOldest
  cases hlast : c.evictList.getLast? with
  | none => exact hinv
  | some e => exact inv_removeElement e hinv

theorem inv_removeOldestN (c : LRUTtl K V) (n : Nat) (hinv : Inv c) :
    Inv (removeOldestN c n) := by
  induction n generalizing c with
  | zero => exact hinv
  | succ m ih => exact ih _ (inv_removeOldest c hinv)

/-! ### Case equations for the operations -/

theorem append_if_eq (b : Bool) (L X : List (K × V)) :
    (if b = true then L ++ X else L) = L ++ (if b = true then X else []) := by
  cases b <;> simp

theorem Remove_absent_eq (c : LRUTtl K V) (k : K) (hk : k ∉ c.items) :
    c.Remove k = (c, false) := by
  unfold Remove
  rw [if_neg hk]

theorem Remove_present_eq (c : LRUTtl K V) (k : K) (e : EntryTtl K V)
    (hk : k ∈ c.items) (hfind : c.evictList.find? (keyIs k) = some e) :
    c.Remove k = (removeElement c e, true) := by
  unfold Remove
  rw [if_pos hk, hfind]

theorem Get_absent_eq (c : LRUTtl K V) (k : K) (now : Nat)
    (hk : k ∉ c.items) : c.Get k now = (c, none) := by
  unfold Get
  rw [if_neg hk]

theorem Get_hit_eq (c : LRUTtl K V) (k : K) (now : Nat) (e : EntryTtl K V)
    (hk : k ∈ c.items) (hfind : c.evictList.find? (keyIs k) = some e)
    (hfresh : ¬ now > e.ttl) :
    c.Get k now = (MoveToFront c k, some e.value) := by
  unfold Get
  rw [if_pos hk, hfind]
  dsimp only
  rw [if_neg hfresh]

theorem Get_expired_eq (c : LRUTtl K V) (k : K) (now : Nat) (e : EntryTtl K V)
    (hk : k ∈ c.items) (hfind : c.evictList.find? (keyIs k) = some e)
    (hexp : now > e.ttl) :
    c.Get k now = ((Remove (MoveToFront c k) k).1, none) := by
  unfold Get
  rw [if_pos hk, hfind]
  dsimp only
  rw [if_pos hexp]

theorem Add_present_eq (c : LRUTtl K V) (k : K) (v : V) (now : Nat)
    (e : EntryTtl K V) (hk : k ∈ c.items)
    (hfind : c.evictList.find? (keyIs k) = some e) :
    c.Add k v now =
      ({ c with
          evictList := { e with value := v, ttl := now + c.expiry } ::
            c.evictList.eraseP (keyIs k)
          timers := c.timers.set e.timer ⟨now + c.expiry, false⟩ }, false) := by
  unfold Add
  rw [if_pos hk, hfind]

theorem Add_absent_no_evict_eq (c : LRUTtl K V) (k : K) (v : V) (now : Nat)
    (hk : k ∉ c.items) (hc : ¬ ((c.evictList.length : Int) + 1 > c.size)) :
    c.Add k v now =
      ({ c with
          timers := c.timers ++ [⟨now + c.expiry, false⟩]
          evictList := ⟨k, v, now + c.expiry, c.timers.length⟩ :: c.evictList
          items := k :: c.items }, false) := by
  unfold Add
  rw [if_neg hk]
  have hd : decide
      (((⟨k, v, now + c.expiry, c.timers.length⟩ :: c.evictList :
          List (EntryTtl K V)).length : Int) > c.size) = false := by
    rw [decide_eq_false_iff_not]
    simpa using hc
  simp only [hd]
  simp

theorem Add_absent_evict_eq (c : LRUTtl K V) (k : K) (v : V) (now : Nat)
    (hk : k ∉ c.items) (hc : (c.evictList.length : Int) + 1 > c.size) :
    c.Add k v now =
      (removeOldest
        { c with
          timers := c.timers ++ [⟨now + c.expiry, false⟩]
          evictList := ⟨k, v, now + c.expiry, c.timers.length⟩ :: c.evictList
          items := k :: c.items }, true) := by
  unfold Add
  rw [if_neg hk]
  have hd : decide
      (((⟨k, v, now + c.expiry, c.timers.length⟩ :: c.evictList :
          List (EntryTtl K V)).length : Int) > c.size) = true := by
    rw [decide_eq_true_eq]
    simpa using hc
  simp only [hd]
  simp

theorem removeOldest_nil_eq (c : LRUTtl K V) (h : c.evictList = []) :
    removeOldest c = c := by
  unfold removeOldest
  rw [h]
  rfl

theorem removeOldest_eq (c : LRUTtl K V) (h : c.evictList ≠ [])
    (hnd : (keysOf c).Nodup) :
    removeOldest c =
      { c with
        evictList := c.evictList.dropLast
        items := c.items.eraseP
          (fun x => decide (x = (c.evictList.getLast h).key))
        evictLog :=
          if c.onEvictSet then
            c.evictLog ++ [((c.evictList.getLast h).key,
                            (c.evictList.getLast h).value)]
          else c.evictLog } := by
  unfold removeOldest
  rw [List.getLast?_eq_getLast _ h]
  show removeElement c (c.evictList.getLast h) = _
  unfold removeElement
  rw [eraseP_keyIs_getLast h hnd]

/-! ### Invariant preservation for the public operations -/

theorem inv_remove (c : LRUTtl K V) (k : K) (hinv : Inv c) :
    Inv (c.Remove k).1 := by
  by_cases hk : k ∈ c.items
  · cases hfind : c.evictList.find? (keyIs k) with
    | some e =>
      rw [Remove_present_eq c k e hk hfind]
      exact inv_removeElement e hinv
    | none =>
      unfold Remove
      rw [if_pos hk, hfind]
      exact hinv
  · rw [Remove_absent_eq c k hk]
    exact hinv

theorem inv_insert_front (c : LRUTtl K V) (k : K) (v : V) (t d : Nat)
    (hinv : Inv c) (hk : k ∉ c.items) :
    Inv { c with
      timers := c.timers ++ [⟨d, false⟩]
      evictList := (⟨k, v, d, t⟩ : EntryTtl K V) :: c.evictList
      items := k :: c.items } := by
  obtain ⟨h1, h2, h3, h4⟩ := hinv
  have hknotk : k ∉ keysOf c := fun hm => hk (h4 k hm)
  have hkeq : keysOf { c with
      timers := c.timers ++ [⟨d, false⟩]
      evictList := (⟨k, v, d, t⟩ : EntryTtl K V) :: c.evictList
      items := k :: c.items } = k :: keysOf c := by
    simp [keysOf]
  refine ⟨List.nodup_cons.mpr ⟨hk, h1⟩, ?_, ?_, ?_⟩
  · rw [hkeq]
    exact List.nodup_cons.mpr ⟨hknotk, h2⟩
  · intro x hx
    rw [hkeq]
    rcases List.mem_cons.mp hx with rfl | hx2
    · exact List.mem_cons_self _ _
    · exact List.mem_cons_of_mem _ (h3 x hx2)
  · intro x hx
    rw [hkeq] at hx
    rcases List.mem_cons.mp hx with rfl | hx2
    · exact List.mem_cons_self _ _
    · exact List.mem_cons_of_mem _ (h4 x hx2)

theorem inv_add (c : LRUTtl K V) (k : K) (v : V) (now : Nat) (hinv : Inv c) :
    Inv (c.Add k v now).1 := by
  by_cases hk : k ∈ c.items
  · cases hfind : c.evictList.find? (keyIs k) with
    | some e =>
      rw [Add_present_eq c k v now e hk hfind]
      obtain ⟨hek, hel⟩ := of_find?_keyIs hfind
      subst hek
      obtain ⟨h1, h2, h3, h4⟩ := hinv
      have hkmem : e.key ∈ keysOf c := List.mem_map_of_mem _ hel
      have hkeq : keysOf { c with
          evictList := { e with value := v, ttl := now + c.expiry } ::
            c.evictList.eraseP (keyIs e.key)
          timers := c.timers.set e.timer ⟨now + c.expiry, false⟩ } =
          e.key :: (keysOf c).eraseP (fun x => decide (x = e.key)) := by
        simp [keysOf, map_key_eraseP]
      refine ⟨h1, ?_, ?_, ?_⟩
      · rw [hkeq, List.nodup_cons]
        refine ⟨?_, List.Nodup.eraseP _ h2⟩
        intro hmem
        exact ((mem_eraseP_key h2 e.key e.key).mp hmem).2 rfl
      · intro x hx
        rw [hkeq]
        by_cases hxe : x = e.key
        · subst hxe
          exact List.mem_cons_self _ _
        · exact List.mem_cons_of_mem _
            ((mem_eraseP_key h2 x e.key).mpr ⟨h3 x hx, hxe⟩)
      · intro x hx
        rw [hkeq] at hx
        rcases List.mem_cons.mp hx with rfl | hx2
        · exact h4 _ hkmem
        · exact h4 x ((mem_eraseP_key h2 x e.key).mp hx2).1
    | none =>
      unfold Add
      rw [if_pos hk, hfind]
      exact hinv
  · by_cases hc : ((c.evictList.length : Int) + 1 > c.size)
    · rw [Add_absent_evict_eq c k v now hk hc]
      exact inv_removeOldest _ (inv_insert_front c k v _ _ hinv hk)
    · rw [Add_absent_no_evict_eq c k v now hk hc]
      exact inv_insert_front c k v _ _ hinv hk

theorem inv_get (c : LRUTtl K V) (k : K) (now : Nat) (hinv : Inv c) :
    Inv (c.Get k now).1 := by
  by_cases hk : k ∈ c.items
  · cases hfind : c.evictList.find? (keyIs k) with
    | some e =>
      by_cases hexp : now > e.ttl
      · rw [Get_expired_eq c k now e hk hfind hexp]
        exact inv_remove _ _ (inv_moveToFront c k hinv)
      · rw [Get_hit_eq c k now e hk hfind hexp]
        exact inv_moveToFront c k hinv
    | none =>
      unfold Get
      rw [if_pos hk, hfind]
      exact hinv
  · rw [Get_absent_eq c k now hk]
    exact hinv

theorem inv_purge (c : LRUTtl K V) : Inv (c.Purge) := by
  refine ⟨List.nodup_nil, ?_, ?_, ?_⟩ <;> simp [Purge, keysOf]

theorem inv_resize (c : LRUTtl K V) (n : Int) (hinv : Inv c) :
    Inv (c.Resize n).1 := by
  show Inv { removeOldestN c (Len c - n).toNat with size := n }
  exact inv_removeOldestN c _ hinv

theorem inv_removeOldestP (c : LRUTtl K V) (hinv : Inv c) :
    Inv (c.RemoveOldest).1 := by
  unfold RemoveOldest
  cases hlast : c.evictList.getLast? with
  | none => exact hinv
  | some e => exact inv_removeElement e hinv

theorem inv_perm (c : LRUTtl K V) (hinv : Inv c) :
    c.items.Perm (keysOf c) := by
  obtain ⟨h1, h2, h3, h4⟩ := hinv
  exact (List.subperm_of_subset h1 fun x hx => h3 x hx).antisymm
    (List.subperm_of_subset h2 fun x hx => h4 x hx)

theorem inv_items_length (c : LRUTtl K V) (hinv : Inv c) :
    c.items.length = c.evictList.length := by
  simpa [keysOf] using (inv_perm c hinv).length_eq

theorem peek_state (c : LRUTtl K V) (k : K) : (c.Peek k).1 = c := by
  unfold Peek
  split <;> rfl

theorem contains_state (c : LRUTtl K V) (k : K) : (c.Contains k).1 = c := rfl

theorem getOldest_state (c : LRUTtl K V) : c.GetOldest.1 = c := by
  unfold GetOldest
  cases c.evictList.getLast? <;> rfl

theorem inv_getOldest (c : LRUTtl K V) (hinv : Inv c) : Inv c.GetOldest.1 := by
  rw [getOldest_state]
  exact hinv

theorem filterMap_keys_eq (l : List (EntryTtl K V))
    (hnd : (l.map (fun e => e.key)).Nodup) (s : List (EntryTtl K V)) :
    (∀ e ∈ s, e ∈ l) →
      (s.map (fun e => e.key)).filterMap (fun k =>
        (l.find? (keyIs k)).map (fun e => (k, e.value))) =
      s.map (fun e => (e.key, e.value)) := by
  induction s with
  | nil => intro _; rfl
  | cons a s ih =>
    intro hs
    have hfind : l.find? (keyIs a.key) = some a :=
      find?_keyIs_of_mem hnd (hs a (List.mem_cons_self _ _))
    simp only [List.map_cons, List.filterMap_cons, hfind, Option.map_some']
    rw [ih (fun e he => hs e (List.mem_cons_of_mem _ he))]

/-! ### Length and size bookkeeping -/

theorem size_removeOldest (c : LRUTtl K V) : (removeOldest c).size = c.size := by
  unfold removeOldest
  cases c.evictList.getLast? <;> rfl

theorem len_removeOldest_cons (c : LRUTtl K V) (hne : c.evictList ≠ []) :
    (removeOldest c).evictList.length = c.evictList.length - 1 := by
  unfold removeOldest
  rw [List.getLast?_eq_getLast _ hne]
  show (removeElement c (c.evictList.getLast hne)).evictList.length = _
  unfold removeElement
  exact List.length_eraseP_of_mem (List.getLast_mem hne) (by simp [keyIs])

theorem add_len_le (c : LRUTtl K V) (k : K) (v : V) (now : Nat)
    (h : Len c ≤ c.size) :
    Len (c.Add k v now).1 ≤ c.size ∧ (c.Add k v now).1.size = c.size := by
  by_cases hk : k ∈ c.items
  · cases hfind : c.evictList.find? (keyIs k) with
    | some e =>
      rw [Add_present_eq c k v now e hk hfind]
      obtain ⟨hek, hel⟩ := of_find?_keyIs hfind
      have hlen : (c.evictList.eraseP (keyIs k)).length =
          c.evictList.length - 1 :=
        List.length_eraseP_of_mem hel (by simp [keyIs, hek])
      have hpos : 0 < c.evictList.length :=
        List.length_pos.mpr (List.ne_nil_of_mem hel)
      refine ⟨?_, rfl⟩
      unfold Len at h ⊢
      simp only [List.length_cons, hlen]
      omega
    | none =>
      unfold Add
      rw [if_pos hk, hfind]
      exact ⟨h, rfl⟩
  · by_cases hc : ((c.evictList.length : Int) + 1 > c.size)
    · rw [Add_absent_evict_eq c k v now hk hc]
      refine ⟨?_, size_removeOldest _⟩
      unfold Len at h ⊢
      rw [len_removeOldest_cons _ (by simp)]
      simp only [List.length_cons]
      omega
    · rw [Add_absent_no_evict_eq c k v now hk hc]
      refine ⟨?_, rfl⟩
      unfold Len at h ⊢
      simp only [List.length_cons]
      omega

theorem addTrace_le (c : LRUTtl K V) (ops : List (K × V × Nat))
    (h : Len c ≤ c.size) :
    ∀ d ∈ c.addTrace ops, Len d ≤ c.size ∧ d.size = c.size := by
  induction ops generalizing c with
  | nil => intro d hd; cases hd
  | cons op rest ih =>
    obtain ⟨k, v, now⟩ := op
    intro d hd
    have hstep := add_len_le c k v now h
    rcases List.mem_cons.mp hd with rfl | hd2
    · exact ⟨hstep.1, hstep.2⟩
    · have hih := ih (c.Add k v now).1 (by rw [hstep.2]; exact hstep.1) d hd2
      exact ⟨hstep.2 ▸ hih.1, hstep.2 ▸ hih.2⟩

/-! ### Characterisation of the `Resize` eviction loop -/

theorem removeOldestN_spec (d : Nat) (c : LRUTtl K V) (hinv : Inv c) :
    (removeOldestN c d).evictList =
      c.evictList.take (c.evictList.length - d) ∧
    (removeOldestN c d).timers = c.timers ∧
    (removeOldestN c d).size = c.size ∧
    (removeOldestN c d).expiry = c.expiry ∧
    (removeOldestN c d).onEvictSet = c.onEvictSet ∧
    (removeOldestN c d).evictLog = c.evictLog ++
      (if c.onEvictSet then
        ((c.evictList.drop (c.evictList.length - d)).reverse.map
          (fun e => (e.key, e.value)))
       else []) := by
  induction d generalizing c with
  | zero =>
    refine ⟨by simp [removeOldestN], rfl, rfl, rfl, rfl, ?_⟩
    show c.evictLog = _
    cases hset : c.onEvictSet <;> simp [removeOldestN]
  | succ m ih =>
    have hsucc : removeOldestN c (m + 1) = removeOldestN (removeOldest c) m :=
      rfl
    rw [hsucc]
    by_cases hne : c.evictList = []
    · rw [removeOldest_nil_eq c hne]
      have hih := ih c hinv
      rw [hne] at hih ⊢
      simpa using hih
    · have hinv2 : Inv (removeOldest c) := inv_removeOldest c hinv
      rw [removeOldest_eq c hne hinv.2.1] at hinv2
      have hih := ih _ hinv2
      rw [removeOldest_eq c hne hinv.2.1]
      dsimp only at hih
      obtain ⟨e1, e2, e3, e4, e5, e6⟩ := hih
      have hlen : c.evictList.dropLast.length = c.evictList.length - 1 :=
        List.length_dropLast _
      have hidx : c.evictList.length - 1 - m = c.evictList.length - (m + 1) := by
        omega
      refine ⟨?_, e2, e3, e4, e5, ?_⟩
      · rw [e1, hlen, List.dropLast_eq_take, List.take_take]
        congr 1
        omega
      · rw [e6, hlen]
        have hsplit := List.dropLast_concat_getLast hne
        have hdrop : c.evictList.drop (c.evictList.length - (m + 1)) =
            c.evictList.dropLast.drop (c.evictList.length - 1 - m) ++
              [c.evictList.getLast hne] := by
          have h2 : c.evictList.drop (c.evictList.length - (m + 1)) =
              (c.evictList.dropLast ++ [c.evictList.getLast hne]).drop
                (c.evictList.length - (m + 1)) := by
            rw [hsplit]
          rw [h2, List.drop_append_of_le_length (by rw [hlen]; omega), hidx]
        cases hset : c.onEvictSet with
        | false => simp [hset]
        | true =>
          simp only [hset, if_true]
          rw [hdrop, List.reverse_append]
          simp [List.append_assoc, hidx]

/-! ### The claims -/

/-- C1. For every cache (satisfying the structure's own consistency
invariant) and every key not currently present, `Add key value now` creates
a new entry with expiry `now + expiry` and a fresh armed timer, inserts it
at the most-recently-used front; if the resulting size exceeds the capacity
it removes the least-recently-used (back) entry, invoking `onEvict` (when
set) with that entry's key and value, and returns `true`; otherwise it
returns `false`. -/
theorem Add_absent_spec (c : LRUTtl K V) (k : K) (v : V) (now : Nat)
    (hinv : Inv c) (hk : k ∉ c.items) :
    (c.Add k v now).2 = decide ((c.evictList.length : Int) + 1 > c.size) ∧
    (¬ ((c.evictList.length : Int) + 1 > c.size) →
      (c.Add k v now).1.evictList =
        ⟨k, v, now + c.expiry, c.timers.length⟩ :: c.evictList ∧
      (c.Add k v now).1.items = k :: c.items ∧
      (c.Add k v now).1.timers = c.timers ++ [⟨now + c.expiry, false⟩] ∧
      (c.Add k v now).1.evictLog = c.evictLog) ∧
    (((c.evictList.length : Int) + 1 > c.size) →
      ∃ last,
        ((⟨k, v, now + c.expiry, c.timers.length⟩ :: c.evictList :
            List (EntryTtl K V))).getLast? = some last ∧
        (c.Add k v now).1.evictList =
          ((⟨k, v, now + c.expiry, c.timers.length⟩ :: c.evictList :
              List (EntryTtl K V))).dropLast ∧
        (c.Add k v now).1.items =
          (k :: c.items).eraseP (fun x => decide (x = last.key)) ∧
        (c.Add k v now).1.timers = c.timers ++ [⟨now + c.expiry, false⟩] ∧
        (c.Add k v now).1.evictLog = c.evictLog ++
          (if c.onEvictSet then [(last.key, last.value)] else [])) := by
  by_cases hc : ((c.evictList.length : Int) + 1 > c.size)
  · rw [Add_absent_evict_eq c k v now hk hc]
    refine ⟨(decide_eq_true hc).symm, fun hcon => absurd hc hcon, fun _ => ?_⟩
    have hinv1 := inv_insert_front c k v c.timers.length (now + c.expiry)
      hinv hk
    have hne : ((⟨k, v, now + c.expiry, c.timers.length⟩ :: c.evictList :
        List (EntryTtl K V))) ≠ [] := by simp
    refine ⟨_, List.getLast?_eq_getLast _ hne, ?_⟩
    have hro := removeOldest_eq
      { c with
        timers := c.timers ++ [⟨now + c.expiry, false⟩]
        evictList := ⟨k, v, now + c.expiry, c.timers.length⟩ :: c.evictList
        items := k :: c.items } hne hinv1.2.1
    rw [hro]
    exact ⟨rfl, rfl, rfl, append_if_eq _ _ _⟩
  · rw [Add_absent_no_evict_eq c k v now hk hc]
    exact ⟨(decide_eq_false hc).symm, fun _ => ⟨rfl, rfl, rfl, rfl⟩,
      fun hcon => absurd hcon hc⟩

/-- C3. For every cache (satisfying the consistency invariant) and every
key already present — witnessed by its list entry `e` — `Add key value now`
updates the entry's value, recomputes its expiry to `now + expiry`, resets
its timer (re-arming it for deadline `now + expiry`), moves the entry to
the most-recently-used front, returns `false`, evicts nothing (the eviction
log is unchanged) and leaves `Len` and the capacity unchanged. -/
theorem Add_present_spec (c : LRUTtl K V) (k : K) (v : V) (now : Nat)
    (hinv : Inv c) (e : EntryTtl K V) (he : e ∈ c.evictList)
    (hek : e.key = k) :
    (c.Add k v now).2 = false ∧
    (c.Add k v now).1.evictList =
      { e with value := v, ttl := now + c.expiry } ::
        c.evictList.eraseP (keyIs k) ∧
    (c.Add k v now).1.items = c.items ∧
    (c.Add k v now).1.timers = c.timers.set e.timer ⟨now + c.expiry, false⟩ ∧
    (c.Add k v now).1.evictLog = c.evictLog ∧
    Len (c.Add k v now).1 = Len c ∧
    (c.Add k v now).1.size = c.size := by
  have hk : k ∈ c.items := hinv.2.2.2 k (hek ▸ List.mem_map_of_mem _ he)
  have hfind : c.evictList.find? (keyIs k) = some e := by
    rw [← hek]
    exact find?_keyIs_of_mem hinv.2.1 he
  rw [Add_present_eq c k v now e hk hfind]
  refine ⟨rfl, rfl, rfl, rfl, rfl, ?_, rfl⟩
  unfold Len
  have hlen : (c.evictList.eraseP (keyIs k)).length =
      c.evictList.length - 1 :=
    List.length_eraseP_of_mem he (by simp [keyIs, hek])
  have hpos : 0 < c.evictList.length :=
    List.length_pos.mpr (List.ne_nil_of_mem he)
  show ((({ e with value := v, ttl := now + c.expiry } ::
      c.evictList.eraseP (keyIs k)).length : Int)) = (c.evictList.length : Int)
  simp only [List.length_cons, hlen]
  omega

/-- C2. For every cache (satisfying the consistency invariant) and every
key, `Get key now` returns not-found when the key is absent; when the key
is present (entry `e`) but `now` is strictly after its expiry, it removes
the entry — from both list and index, appending `(key, value)` to the
eviction log when the callback is set — and returns not-found; otherwise it
returns the stored value and moves the entry to the most-recently-used
front.  Timers are never modified by `Get`. -/
theorem Get_spec (c : LRUTtl K V) (k : K) (now : Nat) (hinv : Inv c) :
    (k ∉ c.items → c.Get k now = (c, none)) ∧
    (∀ e, e ∈ c.evictList → e.key = k → now > e.ttl →
      (c.Get k now).2 = none ∧
      (c.Get k now).1.evictList = c.evictList.eraseP (keyIs k) ∧
      (c.Get k now).1.items = c.items.eraseP (fun x => decide (x = k)) ∧
      (c.Get k now).1.evictLog = c.evictLog ++
        (if c.onEvictSet then [(k, e.value)] else []) ∧
      (c.Get k now).1.timers = c.timers) ∧
    (∀ e, e ∈ c.evictList → e.key = k → ¬ now > e.ttl →
      (c.Get k now).2 = some e.value ∧
      (c.Get k now).1.evictList = e :: c.evictList.eraseP (keyIs k) ∧
      (c.Get k now).1.items = c.items ∧
      (c.Get k now).1.evictLog = c.evictLog ∧
      (c.Get k now).1.timers = c.timers) := by
  refine ⟨fun hk => Get_absent_eq c k now hk, ?_, ?_⟩
  · intro e he hek hexp
    subst hek
    have hk : e.key ∈ c.items := hinv.2.2.2 _ (List.mem_map_of_mem _ he)
    have hfind : c.evictList.find? (keyIs e.key) = some e :=
      find?_keyIs_of_mem hinv.2.1 he
    have hmv : MoveToFront c e.key =
        { c with evictList := e :: c.evictList.eraseP (keyIs e.key) } := by
      unfold MoveToFront
      rw [hfind]
    rw [Get_expired_eq c e.key now e hk hfind hexp, hmv]
    rw [Remove_present_eq
      { c with evictList := e :: c.evictList.eraseP (keyIs e.key) }
      e.key e hk (List.find?_cons_of_pos _ (by simp [keyIs]))]
    refine ⟨rfl, ?_, rfl, ?_, rfl⟩
    · show (e :: c.evictList.eraseP (keyIs e.key)).eraseP (keyIs e.key) = _
      rw [List.eraseP_cons_of_pos (by simp [keyIs])]
    · exact append_if_eq _ _ _
  · intro e he hek hfresh
    subst hek
    have hk : e.key ∈ c.items := hinv.2.2.2 _ (List.mem_map_of_mem _ he)
    have hfind : c.evictList.find? (keyIs e.key) = some e :=
      find?_keyIs_of_mem hinv.2.1 he
    have hmv : MoveToFront c e.key =
        { c with evictList := e :: c.evictList.eraseP (keyIs e.key) } := by
      unfold MoveToFront
      rw [hfind]
    rw [Get_hit_eq c e.key now e hk hfind hfresh, hmv]
    exact ⟨rfl, rfl, rfl, rfl, rfl⟩

/-- C4. Construction with non-positive capacity fails and produces no
cache; from a successfully constructed cache, after every `Add` of an
arbitrary sequence of `(key, value, time)` requests the entry count never
exceeds the construction capacity. -/
theorem capacity_invariant (size : Int) (expiry : Nat) (fl : Bool)
    (ops : List (K × V × Nat)) :
    (size ≤ 0 → (NewLRUTtl size expiry fl : Option (LRUTtl K V)) = none) ∧
    (∀ c : LRUTtl K V, NewLRUTtl size expiry fl = some c →
      ∀ d ∈ c.addTrace ops, Len d ≤ size) := by
  constructor
  · intro h
    unfold NewLRUTtl
    rw [if_pos h]
  · intro c hc d hd
    have hpos : ¬ size ≤ 0 := by
      intro h
      unfold NewLRUTtl at hc
      rw [if_pos h] at hc
      cases hc
    have hceq : c = mkCache size expiry fl := by
      unfold NewLRUTtl at hc
      rw [if_neg hpos] at hc
      injection hc with h
      exact h.symm
    subst hceq
    have h0 : Len (mkCache size expiry fl : LRUTtl K V) ≤
        (mkCache size expiry fl : LRUTtl K V).size := by
      show ((([] : List (EntryTtl K V)).length : Int)) ≤ size
      simp
      omega
    exact (addTrace_le _ ops h0 d hd).1

/-- C5. Every operation preserves the consistency invariant between the
index map and the order list (each key resolves to exactly one list entry
and conversely), and under that invariant the map size equals the list
length.  `Keys` and `Len` take no state and mutate nothing. -/
theorem consistency_preserved (c : LRUTtl K V) (k : K) (v : V) (now : Nat)
    (n : Int) (hinv : Inv c) :
    Inv (c.Add k v now).1 ∧ Inv (c.Get k now).1 ∧ Inv (c.Peek k).1 ∧
    Inv (c.Contains k).1 ∧ Inv (c.Remove k).1 ∧ Inv (c.RemoveOldest).1 ∧
    Inv (c.GetOldest).1 ∧ Inv c.Purge ∧ Inv (c.Resize n).1 ∧
    c.items.length = c.evictList.length := by
  refine ⟨inv_add c k v now hinv, inv_get c k now hinv, ?_, hinv,
    inv_remove c k hinv, inv_removeOldestP c hinv, inv_getOldest c hinv,
    inv_purge c, inv_resize c n hinv, inv_items_length c hinv⟩
  rw [peek_state]
  exact hinv

/-- C6 (amended). For every cache (satisfying the consistency invariant),
`Remove key` on a present key (entry `e`) removes the entry from both the
ordered list and the index, appends `(key, value)` to the eviction log when
the callback is set, and returns `true` — but it does NOT cancel the
entry's timer: the timer store is unchanged.  On an absent key it returns
`false` and leaves the whole state unchanged. -/
theorem Remove_spec (c : LRUTtl K V) (k : K) (hinv : Inv c) :
    (∀ e, e ∈ c.evictList → e.key = k →
      (c.Remove k).2 = true ∧
      (c.Remove k).1.evictList = c.evictList.eraseP (keyIs k) ∧
      (c.Remove k).1.items = c.items.eraseP (fun x => decide (x = k)) ∧
      (c.Remove k).1.evictLog = c.evictLog ++
        (if c.onEvictSet then [(k, e.value)] else []) ∧
      (c.Remove k).1.timers = c.timers) ∧
    (k ∉ c.items → c.Remove k = (c, false)) := by
  refine ⟨?_, Remove_absent_eq c k⟩
  intro e he hek
  subst hek
  have hk : e.key ∈ c.items := hinv.2.2.2 _ (List.mem_map_of_mem _ he)
  have hfind : c.evictList.find? (keyIs e.key) = some e :=
    find?_keyIs_of_mem hinv.2.1 he
  rw [Remove_present_eq c e.key e hk hfind]
  exact ⟨rfl, rfl, rfl, append_if_eq _ _ _, rfl⟩

/-- C7 (amended). `Purge` removes all entries, appends to the eviction log
exactly one `(key, value)` record per previously-live entry when the
callback is set, and afterwards `Len` is zero and `Keys` is empty — but it
does NOT cancel the outstanding entry timers: the timer store is
unchanged. -/
theorem Purge_spec (c : LRUTtl K V) (hinv : Inv c) :
    c.Purge.evictList = [] ∧ c.Purge.items = [] ∧ Len c.Purge = 0 ∧
    Keys c.Purge = [] ∧ c.Purge.timers = c.timers ∧
    (c.onEvictSet = true →
      ∃ L, c.Purge.evictLog = c.evictLog ++ L ∧
        L.Perm (c.evictList.map (fun e => (e.key, e.value)))) := by
  refine ⟨rfl, rfl, rfl, rfl, rfl, ?_⟩
  intro hset
  refine ⟨c.items.filterMap (fun y =>
    (c.evictList.find? (keyIs y)).map (fun e => (y, e.value))), ?_, ?_⟩
  · show (if c.onEvictSet = true then _ else _) = _
    rw [hset]
    simp
  · have h1 := (inv_perm c hinv).filterMap (fun y =>
      (c.evictList.find? (keyIs y)).map (fun e => (y, e.value)))
    unfold keysOf at h1
    rw [filterMap_keys_eq c.evictList hinv.2.1 c.evictList
      (fun e he => he)] at h1
    exact h1

/-- C8 (amended). `Resize n` sets the capacity to `n`, evicts entries from
the least-recently-used (back) end until the size fits — independently of
any TTL state, the survivors being the most-recently-used front of the old
list — appends one log record per evicted entry (back first) when the
callback is set, and returns `max (Len - n) 0`, the number evicted.  It
does NOT cancel the evicted entries' timers: the timer store is
unchanged. -/
theorem Resize_spec (c : LRUTtl K V) (n : Int) (hinv : Inv c) :
    (c.Resize n).2 = max (Len c - n) 0 ∧
    (c.Resize n).1.size = n ∧
    (c.Resize n).1.evictList =
      c.evictList.take (c.evictList.length - (Len c - n).toNat) ∧
    (c.Resize n).1.timers = c.timers ∧
    (c.Resize n).1.evictLog = c.evictLog ++
      (if c.onEvictSet then
        ((c.evictList.drop
            (c.evictList.length - (Len c - n).toNat)).reverse.map
          (fun e => (e.key, e.value)))
       else []) := by
  obtain ⟨e1, e2, e3, e4, e5, e6⟩ := removeOldestN_spec (Len c - n).toNat c hinv
  exact ⟨Int.ofNat_toNat _, rfl, e1, e2, e6⟩

/-- C9. `Peek` and `Contains` leave the entire cache state unchanged — in
particular no entry is removed or expired and no eviction is logged —
`Contains` returns exactly map membership, and `Peek` reports found iff
the key is present, returning the stored value of the key's entry. -/
theorem Peek_Contains_spec (c : LRUTtl K V) (k : K) (hinv : Inv c) :
    (c.Peek k).1 = c ∧ (c.Contains k).1 = c ∧
    (c.Contains k).2 = decide (k ∈ c.items) ∧
    (c.Peek k).2.isSome = decide (k ∈ c.items) ∧
    (∀ e, e ∈ c.evictList → e.key = k → (c.Peek k).2 = some e.value) := by
  refine ⟨peek_state c k, rfl, rfl, ?_, ?_⟩
  · by_cases hk : k ∈ c.items
    · unfold Peek
      rw [if_pos hk]
      have hkm : k ∈ c.evictList.map (fun e => e.key) := hinv.2.2.1 k hk
      obtain ⟨e, he, hek⟩ := List.mem_map.mp hkm
      subst hek
      rw [find?_keyIs_of_mem hinv.2.1 he]
      simp [hk]
    · unfold Peek
      rw [if_neg hk]
      simp [hk]
  · intro e he hek
    subst hek
    have hk : e.key ∈ c.items := hinv.2.2.2 _ (List.mem_map_of_mem _ he)
    unfold Peek
    rw [if_pos hk, find?_keyIs_of_mem hinv.2.1 he]
    rfl

/-- C10. `Resize` accepts any integer capacity (positivity is only checked
at construction) and installs it; `Resize 0` empties the cache; and from
any empty cache with capacity 0 and the callback set, every `Add` of a key
returns `evicted = true` and leaves the cache empty again, the just-added
entry itself being immediately evicted with its key and value logged. -/
theorem Resize_zero_Add_spec (c : LRUTtl K V) (n : Int) (hinv : Inv c) :
    (c.Resize n).1.size = n ∧
    (c.Resize 0).1.evictList = [] ∧
    (c.Resize 0).1.items = [] ∧
    (∀ cz : LRUTtl K V, cz.evictList = [] → cz.items = [] → cz.size = 0 →
      cz.onEvictSet = true → ∀ (k : K) (v : V) (now : Nat),
        (cz.Add k v now).2 = true ∧
        (cz.Add k v now).1.evictList = [] ∧
        (cz.Add k v now).1.items = [] ∧
        (cz.Add k v now).1.evictLog = cz.evictLog ++ [(k, v)]) := by
  have hnil : (c.Resize 0).1.evictList = [] := by
    have e1 := (removeOldestN_spec (Len c - 0).toNat c hinv).1
    have hd : c.evictList.length - (Len c - 0).toNat = 0 := by
      unfold Len
      omega
    show (removeOldestN c (Len c - 0).toNat).evictList = []
    rw [e1, hd]
    simp
  refine ⟨rfl, hnil, ?_, ?_⟩
  · have hinv2 := inv_resize c 0 hinv
    have hkeys : keysOf (c.Resize 0).1 = [] := by
      unfold keysOf
      rw [hnil]
      rfl
    refine List.eq_nil_iff_forall_not_mem.mpr ?_
    intro x hx
    have := hinv2.2.2.1 x hx
    rw [hkeys] at this
    cases this
  · intro cz h1 h2 h3 h4 k v now
    have hk : k ∉ cz.items := by
      rw [h2]
      simp
    have hc : ((cz.evictList.length : Int) + 1 > cz.size) := by
      rw [h1, h3]
      simp
    rw [Add_absent_evict_eq cz k v now hk hc]
    refine ⟨rfl, ?_, ?_, ?_⟩ <;>
      simp [removeOldest, removeElement, h1, h2, h4, keyIs]

/-! ### Counterexamples: the removal paths never stop timers -/

/-- Counterexample to C6 as stated: in `exCache` the (present) entry for
key 7 owns timer 0; `Remove 7` returns `true` — the entry is removed —
yet its timer is not cancelled (`timer.Stop` is never called on the
removal path). -/
theorem Remove_timer_counterexample :
    ¬ ((exCache.Remove 7).2 = true →
       timerStoppedAt (exCache.Remove 7).1 0 = true) := by decide

/-- Counterexample to C7 as stated: `Purge` on `exCache` does empty the
cache, but the purged entry's timer (index 0) is not cancelled. -/
theorem Purge_timer_counterexample :
    ¬ (Len exCache.Purge = 0 →
       timerStoppedAt exCache.Purge 0 = true) := by decide

/-- Counterexample to C8 as stated: `Resize 0` on `exCache` evicts the one
entry (returning eviction count 1), but the evicted entry's timer (index 0)
is not cancelled. -/
theorem Resize_timer_counterexample :
    ¬ ((exCache.Resize 0).2 = 1 →
       timerStoppedAt (exCache.Resize 0).1 0 = true) := by decide

/-! ### Witnesses instantiating the claims at `exCache` -/

/-- Witness for C1: adding absent key 9 to `exCache` (capacity 2, one
entry) evicts nothing and returns `false`. -/
theorem Add_absent_spec_witness :
    Inv exCache ∧ (9 : Nat) ∉ exCache.items ∧
      (exCache.Add 9 1 2).2 = false := by
  refine ⟨by decide, by decide, ?_⟩
  rw [(Add_absent_spec exCache 9 1 2 (by decide) (by decide)).1]
  decide

/-- Witness for C2: a fresh hit on key 7 at time 3 (expiry 10) returns the
stored value. -/
theorem Get_spec_witness :
    Inv exCache ∧ (exCache.Get 7 3).2 = some 42 := by
  refine ⟨by decide, ?_⟩
  exact ((Get_spec exCache 7 3 (by decide)).2.2
    ⟨7, 42, 10, 0⟩ (by decide) rfl (by decide)).1

/-- Witness for C3: re-adding present key 7 returns `false`. -/
theorem Add_present_spec_witness :
    Inv exCache ∧ (exCache.Add 7 5 2).2 = false := by
  refine ⟨by decide, ?_⟩
  exact (Add_present_spec exCache 7 5 2 (by decide) ⟨7, 42, 10, 0⟩
    (by decide) rfl).1

/-- Witness for C4: after three Adds into a fresh capacity-2 cache the
length is still at most 2. -/
theorem capacity_invariant_witness :
    Len ((((mkCache 2 10 true : LRUTtl Nat Nat).Add 1 1 0).1.Add
      2 2 0).1.Add 3 3 1).1 ≤ 2 := by
  have h := (capacity_invariant 2 10 true
    [(1, 1, 0), (2, 2, 0), (3, 3, 1)]).2 (mkCache 2 10 true) (by decide)
  exact h _ (by decide)

/-- Witness for C5: in `exCache` the map size equals the list length. -/
theorem consistency_preserved_witness :
    exCache.items.length = exCache.evictList.length :=
  (consistency_preserved exCache 7 1 0 1 (by decide)).2.2.2.2.2.2.2.2.2

/-- Witness for C6 (amended): removing present key 7 returns `true`. -/
theorem Remove_spec_witness :
    Inv exCache ∧ (exCache.Remove 7).2 = true := by
  refine ⟨by decide, ?_⟩
  exact ((Remove_spec exCache 7 (by decide)).1 ⟨7, 42, 10, 0⟩
    (by decide) rfl).1

/-- Witness for C7 (amended): after `Purge` the cache is empty. -/
theorem Purge_spec_witness :
    Inv exCache ∧ Len exCache.Purge = 0 ∧ Keys exCache.Purge = [] := by
  refine ⟨by decide, ?_, ?_⟩
  · exact (Purge_spec exCache (by decide)).2.2.1
  · exact (Purge_spec exCache (by decide)).2.2.2.1

/-- Witness for C8 (amended): `Resize 1` on the one-entry `exCache` evicts
nothing and returns 0. -/
theorem Resize_spec_witness :
    Inv exCache ∧ (exCache.Resize 1).2 = 0 := by
  refine ⟨by decide, ?_⟩
  rw [(Resize_spec exCache 1 (by decide)).1]
  decide

/-- Witness for C9: `Peek` on present key 7 returns the stored value,
`Contains` on absent key 9 returns `false`. -/
theorem Peek_Contains_spec_witness :
    Inv exCache ∧ (exCache.Peek 7).2 = some 42 ∧
      (exCache.Contains 9).2 = false := by
  refine ⟨by decide, ?_, ?_⟩
  · exact (Peek_Contains_spec exCache 7 (by decide)).2.2.2.2
      ⟨7, 42, 10, 0⟩ (by decide) rfl
  · rw [(Peek_Contains_spec exCache 9 (by decide)).2.2.1]
    decide

/-- Witness for C10: after `Resize 0`, adding key 3 reports an eviction. -/
theorem Resize_zero_Add_spec_witness :
    Inv exCache ∧ ((exCache.Resize 0).1.Add 3 4 5).2 = true := by
  refine ⟨by decide, ?_⟩
  exact ((Resize_zero_Add_spec exCache 0 (by decide)).2.2.2
    (exCache.Resize 0).1 (by decide) (by decide) (by decide) (by decide)
    3 4 5).1

end LRUTtl

end SimpleLRU
